import Mathlib

/-!
# Verification of the subtitle-formatter core of `app.py`

This file gives a shallow embedding of the subtitle-formatter routines of
the repository (`src/app.py`, class `VideoToSRTBot`) and proves the spec's
claims about them:

* `time_format` (app.py lines 52-59): seconds → `HH:MM:SS,mmm` via Python's
  `datetime.timedelta`;
* the timing-refinement loop of `transcribe_video` (app.py lines 84-88),
  called `normalize_segment` per the spec;
* the text clean-up of `create_srt` (app.py lines 98-101), called
  `clean_text` per the spec: `.strip()` then `.replace('...', '…')` then
  `.replace('..', '.')`;
* the document assembly of `create_srt` (app.py lines 92-107).

Numbers are modelled by `ℚ` (exact rationals standing for the finite float
inputs); Python strings by `String`/`List Char`.
-/

namespace App

/-- A transcription segment as consumed by `create_srt` / refined by
`transcribe_video`: the dict keys `start`, `end`, `text` of a Whisper
segment (the only keys the code reads). -/
structure Segment where
  start : ℚ
  «end» : ℚ
  text : String
  deriving DecidableEq, Repr

/-- The timing-refinement loop body of `transcribe_video` (app.py 84-88):

```python
if segment['start'] < 0:
    segment['start'] = 0
if segment['end'] <= segment['start']:
    segment['end'] = segment['start'] + 1
```

The second test reads the already-clamped `start`. -/
def normalize_segment (seg : Segment) : Segment :=
  let s := if seg.start < 0 then 0 else seg.start
  let e := if seg.«end» ≤ s then s + 1 else seg.«end»
  { start := s, «end» := e, text := seg.text }

/-- Round a rational to the nearest integer, ties to even — the rounding
CPython's `timedelta` constructor applies when converting a float
`seconds` argument into whole microseconds. -/
def roundHalfEven (q : ℚ) : ℤ :=
  let f : ℤ := q.num.fdiv q.den
  let r : ℚ := q - (f : ℚ)
  if r < 1 / 2 then f
  else if 1 / 2 < r then f + 1
  else if f % 2 = 0 then f else f + 1

/-- Python's `f"{n:0Wd}"` for a nonnegative `n`: decimal digits of `n`,
left-padded with zeros to width `w`. -/
def zfill (w : Nat) (n : Nat) : String :=
  let s := Nat.repr n
  String.mk (List.replicate (w - s.length) '0' ++ s.data)

/-- `VideoToSRTBot.time_format` (app.py 52-59):

```python
td = timedelta(seconds=seconds)
hours = td.seconds // 3600
minutes = (td.seconds % 3600) // 60
seconds = td.seconds % 60
milliseconds = td.microseconds // 1000
return f"{hours:02d}:{minutes:02d}:{seconds:02d},{milliseconds:03d}"
```

`timedelta` normalizes its argument into `(days, seconds, microseconds)`
with `0 ≤ seconds < 86400` and `0 ≤ microseconds < 1000000` (floor
semantics, fractional seconds rounded half-to-even to microseconds);
`td.seconds` and `td.microseconds` are recovered here from the total
microsecond count by floor division/modulus. The `days` part is dropped
by the Python code, which only reads `td.seconds`. -/
def time_format (seconds : ℚ) : String :=
  let totalMicros : ℤ := roundHalfEven (seconds * 1000000)
  let td_seconds : ℕ := ((totalMicros.fdiv 1000000).fmod 86400).toNat
  let td_microseconds : ℕ := (totalMicros.fmod 1000000).toNat
  let hours := td_seconds / 3600
  let minutes := (td_seconds % 3600) / 60
  let secs := td_seconds % 60
  let milliseconds := td_microseconds / 1000
  zfill 2 hours ++ ":" ++ zfill 2 minutes ++ ":" ++ zfill 2 secs ++ ","
    ++ zfill 3 milliseconds

/-- Python `str.isspace` for a single character: the exact set of code
points `str.strip()` removes. -/
def isPySpace (c : Char) : Bool :=
  (0x09 ≤ c.toNat && c.toNat ≤ 0x0D) ||
  (0x1C ≤ c.toNat && c.toNat ≤ 0x1F) ||
  c.toNat == 0x20 || c.toNat == 0x85 || c.toNat == 0xA0 ||
  c.toNat == 0x1680 ||
  (0x2000 ≤ c.toNat && c.toNat ≤ 0x200A) ||
  c.toNat == 0x2028 || c.toNat == 0x2029 || c.toNat == 0x202F ||
  c.toNat == 0x205F || c.toNat == 0x3000

/-- Python `str.strip()` on the character list: remove whitespace from the
front, then from the back. -/
def pyStrip (l : List Char) : List Char :=
  List.rdropWhile isPySpace (List.dropWhile isPySpace l)

/-- Python `str.replace('...', '…')` (app.py 101), specialised to its
literal arguments: scan left to right; whenever the next three characters
are periods, emit `'…'` and skip them, otherwise copy one character. -/
def replaceEllipsis : List Char → List Char
  | [] => []
  | [c] => [c]
  | [c, d] => [c, d]
  | c :: d :: e :: cs =>
    if c = '.' ∧ d = '.' ∧ e = '.' then '…' :: replaceEllipsis cs
    else c :: replaceEllipsis (d :: e :: cs)

/-- Python `str.replace('..', '.')` (app.py 101), specialised to its
literal arguments: scan left to right; whenever the next two characters
are periods, emit one period and skip them, otherwise copy one
character. -/
def replaceDots : List Char → List Char
  | [] => []
  | [c] => [c]
  | c :: d :: cs =>
    if c = '.' ∧ d = '.' then '.' :: replaceDots cs
    else c :: replaceDots (d :: cs)

/-- The text clean-up applied by `create_srt` to each segment (app.py
98-101), which the spec names `clean_text`:

```python
text = segment['text'].strip()
text = text.replace('...', '…').replace('..', '.')
``` -/
def clean_text (s : String) : String :=
  String.mk (replaceDots (replaceEllipsis (pyStrip s.data)))

/-- One record written by the loop body of `create_srt` (app.py 95-105):
index line, time line, cleaned text line, blank separator. -/
def srtRecord (i : Nat) (seg : Segment) : String :=
  Nat.repr i ++ "\n" ++ time_format seg.start ++ " --> "
    ++ time_format seg.«end» ++ "\n" ++ clean_text seg.text ++ "\n\n"

/-- The `for i, segment in enumerate(segments, 1)` loop of `create_srt`,
accumulating the records in order. -/
def create_srt_aux : Nat → List Segment → String
  | _, [] => ""
  | i, seg :: rest => srtRecord i seg ++ create_srt_aux (i + 1) rest

/-- `VideoToSRTBot.create_srt` (app.py 92-107), restricted to the document
it writes: the concatenation, in input order, of one four-line record per
segment, indices counting from 1. (The file I/O around it is the excluded
boundary.) -/
def create_srt (segments : List Segment) : String :=
  create_srt_aux 1 segments

/-! ## The fallible pipeline

`timedelta(seconds=...)` raises `OverflowError` when the normalized day
count has magnitude above 999999999 (CPython's documented range), so
`time_format` — and with it `create_srt` — can fail on finite well-typed
input. The `_py` versions below model that error path with `Option`:
`none` is the raise, and on the non-raising domain they return exactly
what the total models above return. -/

/-- The CPython range check of `timedelta`: the floor-normalized day count
of the input must have magnitude at most 999999999. -/
def timedelta_ok (q : ℚ) : Prop :=
  -999999999 ≤ (roundHalfEven (q * 1000000)).fdiv 86400000000 ∧
    (roundHalfEven (q * 1000000)).fdiv 86400000000 ≤ 999999999

/-- `VideoToSRTBot.time_format` including the `timedelta` overflow check:
`none` models the `OverflowError` raised when the normalized day count
exceeds ±999999999 days; otherwise the returned string is that of the
total model `time_format`. -/
def time_format_py (seconds : ℚ) : Option String :=
  let totalMicros : ℤ := roundHalfEven (seconds * 1000000)
  let days : ℤ := totalMicros.fdiv 86400000000
  if days < -999999999 ∨ 999999999 < days then none
  else some (time_format seconds)

/-- One record of `create_srt` through the fallible `time_format_py`: the
record is produced only if both timestamps format without raising. -/
def srtRecord_py (i : Nat) (seg : Segment) : Option String :=
  match time_format_py seg.start, time_format_py seg.«end» with
  | some s, some e =>
    some (Nat.repr i ++ "\n" ++ s ++ " --> " ++ e ++ "\n"
      ++ clean_text seg.text ++ "\n\n")
  | _, _ => none

/-- The write loop of `create_srt` through the fallible records: the first
raising segment aborts the document (models the uncaught exception). -/
def create_srt_py_aux : Nat → List Segment → Option String
  | _, [] => some ""
  | i, seg :: rest =>
    match srtRecord_py i seg, create_srt_py_aux (i + 1) rest with
    | some r, some t => some (r ++ t)
    | _, _ => none

/-- `VideoToSRTBot.create_srt` through the fallible `time_format_py`. -/
def create_srt_py (segments : List Segment) : Option String :=
  create_srt_py_aux 1 segments

/-! ## Proof-internal predicates

These are not part of the source; they are the invariants used to prove
that the clean-up is idempotent. -/

/-- Does the list contain two adjacent periods? -/
def hasDD : List Char → Bool
  | [] => false
  | [_] => false
  | c :: d :: cs => if c = '.' ∧ d = '.' then true else hasDD (d :: cs)

/-- Does the list contain three adjacent periods? -/
def hasTriple : List Char → Bool
  | [] => false
  | [_] => false
  | [_, _] => false
  | c :: d :: e :: cs =>
    if c = '.' ∧ d = '.' ∧ e = '.' then true else hasTriple (d :: e :: cs)

/-- The number of leading periods. -/
def leadDots : List Char → Nat
  | [] => 0
  | c :: cs => if c = '.' then leadDots cs + 1 else 0

/-- The first character, if any, is not Python whitespace. -/
def noWsHead (l : List Char) : Prop := ∀ c ∈ l.head?, isPySpace c = false

/-- The last character, if any, is not Python whitespace. -/
def noWsLast (l : List Char) : Prop := ∀ c ∈ l.getLast?, isPySpace c = false

/-! ## Helper lemmas -/

theorem roundHalfEven_intCast (m : ℤ) : roundHalfEven (m : ℚ) = m := by
  simp only [roundHalfEven, Rat.num_intCast, Rat.den_intCast, Nat.cast_one, Int.fdiv_one,
    sub_self]
  norm_num

theorem fdiv_natCast (a b : ℕ) : (a : ℤ).fdiv (b : ℤ) = ((a / b : ℕ) : ℤ) :=
  (Int.ofNat_fdiv a b).symm

theorem fmod_natCast (a b : ℕ) : (a : ℤ).fmod (b : ℤ) = ((a % b : ℕ) : ℤ) :=
  (Int.ofNat_fmod a b).symm

/-- `time_format` on a whole-second input, in elementary form: the seconds
value is first reduced modulo 86400 (the `timedelta` day part the Python
code drops). -/
theorem time_format_natCast (n : ℕ) :
    time_format (n : ℚ) =
      zfill 2 (n % 86400 / 3600) ++ ":" ++ zfill 2 (n % 86400 % 3600 / 60) ++ ":"
        ++ zfill 2 (n % 86400 % 60) ++ "," ++ zfill 3 0 := by
  have h1 : (n : ℚ) * 1000000 = (((n * 1000000 : ℕ) : ℤ) : ℚ) := by push_cast; ring
  have h2 : ((1000000 : ℤ)) = ((1000000 : ℕ) : ℤ) := rfl
  have h3 : ((86400 : ℤ)) = ((86400 : ℕ) : ℤ) := rfl
  simp only [time_format, h1, roundHalfEven_intCast, h2, h3, fdiv_natCast, fmod_natCast,
    Int.toNat_natCast]
  have h4 : n * 1000000 / 1000000 = n := Nat.mul_div_cancel n (by norm_num)
  have h5 : n * 1000000 % 1000000 = 0 := Nat.mul_mod_left n 1000000
  rw [h4, h5]

/-! ### The fallible pipeline refines the total one on its domain -/

theorem time_format_py_eq_some {q : ℚ} (h : timedelta_ok q) :
    time_format_py q = some (time_format q) := by
  simp only [time_format_py]
  rw [if_neg]
  push_neg
  exact ⟨h.1, h.2⟩

/-- Whole-second inputs up to 86399999999999 s (the largest whole second
`timedelta` accepts) pass the range check. -/
theorem timedelta_ok_natCast {n : ℕ} (h : n ≤ 86399999999999) :
    timedelta_ok (n : ℚ) := by
  have h1 : (n : ℚ) * 1000000 = (((n * 1000000 : ℕ) : ℤ) : ℚ) := by push_cast; ring
  have h2 : ((86400000000 : ℤ)) = ((86400000000 : ℕ) : ℤ) := rfl
  have hdays : (roundHalfEven ((n : ℚ) * 1000000)).fdiv 86400000000
      = ((n * 1000000 / 86400000000 : ℕ) : ℤ) := by
    rw [h1, roundHalfEven_intCast, h2, fdiv_natCast]
  constructor
  · rw [hdays]
    have := Int.natCast_nonneg (n * 1000000 / 86400000000)
    omega
  · rw [hdays]
    have hb : n * 1000000 / 86400000000 ≤ 999999999 := by omega
    exact_mod_cast hb

theorem srtRecord_py_eq_some {i : Nat} {seg : Segment}
    (h1 : timedelta_ok seg.start) (h2 : timedelta_ok seg.«end») :
    srtRecord_py i seg = some (srtRecord i seg) := by
  unfold srtRecord_py
  rw [time_format_py_eq_some h1, time_format_py_eq_some h2]
  rfl

theorem create_srt_py_aux_cons (i : Nat) (seg : Segment) (rest : List Segment) :
    create_srt_py_aux i (seg :: rest) =
      match srtRecord_py i seg, create_srt_py_aux (i + 1) rest with
      | some r, some t => some (r ++ t)
      | _, _ => none := rfl

theorem create_srt_aux_cons (i : Nat) (seg : Segment) (rest : List Segment) :
    create_srt_aux i (seg :: rest) = srtRecord i seg ++ create_srt_aux (i + 1) rest := rfl

theorem create_srt_py_aux_eq_some :
    ∀ (i : Nat) (segs : List Segment),
      (∀ seg ∈ segs, timedelta_ok seg.start ∧ timedelta_ok seg.«end») →
      create_srt_py_aux i segs = some (create_srt_aux i segs)
  | _, [], _ => rfl
  | i, seg :: rest, h => by
    have hs := h seg (List.mem_cons_self seg rest)
    have hr := create_srt_py_aux_eq_some (i + 1) rest
      (fun s hmem => h s (List.mem_cons_of_mem seg hmem))
    rw [create_srt_py_aux_cons, create_srt_aux_cons, srtRecord_py_eq_some hs.1 hs.2, hr]

/-! ### Equation lemmas for the scanners -/

theorem hasDD_cons_cons (c d : Char) (cs : List Char) :
    hasDD (c :: d :: cs) = if c = '.' ∧ d = '.' then true else hasDD (d :: cs) := rfl

theorem hasTriple_cons₃ (c d e : Char) (cs : List Char) :
    hasTriple (c :: d :: e :: cs) =
      if c = '.' ∧ d = '.' ∧ e = '.' then true else hasTriple (d :: e :: cs) := rfl

theorem leadDots_cons (c : Char) (cs : List Char) :
    leadDots (c :: cs) = if c = '.' then leadDots cs + 1 else 0 := rfl

theorem replaceEllipsis_cons₃ (c d e : Char) (cs : List Char) :
    replaceEllipsis (c :: d :: e :: cs) =
      if c = '.' ∧ d = '.' ∧ e = '.' then '…' :: replaceEllipsis cs
      else c :: replaceEllipsis (d :: e :: cs) := rfl

theorem replaceDots_cons_cons (c d : Char) (cs : List Char) :
    replaceDots (c :: d :: cs) =
      if c = '.' ∧ d = '.' then '.' :: replaceDots cs
      else c :: replaceDots (d :: cs) := rfl

/-! ### Basic facts about the scanners -/

theorem leadDots_cons_of_ne {c : Char} (h : c ≠ '.') (cs : List Char) :
    leadDots (c :: cs) = 0 := by rw [leadDots_cons, if_neg h]

theorem leadDots_cons_dot (cs : List Char) :
    leadDots ('.' :: cs) = leadDots cs + 1 := by rw [leadDots_cons, if_pos rfl]

theorem ne_dot_of_leadDots_eq_zero {c : Char} {cs : List Char}
    (h : leadDots (c :: cs) = 0) : c ≠ '.' := by
  intro hc
  subst hc
  rw [leadDots_cons_dot] at h
  exact Nat.succ_ne_zero _ h

theorem hasDD_tail {c : Char} {cs : List Char} (h : hasDD (c :: cs) = false) :
    hasDD cs = false := by
  cases cs with
  | nil => rfl
  | cons d cs' =>
    rw [hasDD_cons_cons] at h
    by_cases hP : c = '.' ∧ d = '.'
    · rw [if_pos hP] at h; exact Bool.noConfusion h
    · rwa [if_neg hP] at h

theorem hasTriple_tail {c : Char} {cs : List Char} (h : hasTriple (c :: cs) = false) :
    hasTriple cs = false := by
  cases cs with
  | nil => rfl
  | cons d cs' =>
    cases cs' with
    | nil => rfl
    | cons e cs'' =>
      rw [hasTriple_cons₃] at h
      by_cases hP : c = '.' ∧ d = '.' ∧ e = '.'
      · rw [if_pos hP] at h; exact Bool.noConfusion h
      · rwa [if_neg hP] at h

theorem hasDD_cons_of_ne {c : Char} (h : c ≠ '.') (cs : List Char) :
    hasDD (c :: cs) = hasDD cs := by
  cases cs with
  | nil => rfl
  | cons d cs' =>
    rw [hasDD_cons_cons, if_neg]
    intro hP
    exact h hP.1

theorem hasDD_cons_dot {cs : List Char} (h : leadDots cs = 0) :
    hasDD ('.' :: cs) = hasDD cs := by
  cases cs with
  | nil => rfl
  | cons d cs' =>
    rw [hasDD_cons_cons, if_neg]
    intro hP
    exact ne_dot_of_leadDots_eq_zero h hP.2

theorem hasTriple_cons_of_ne {c : Char} (h : c ≠ '.') (cs : List Char) :
    hasTriple (c :: cs) = hasTriple cs := by
  cases cs with
  | nil => rfl
  | cons d cs' =>
    cases cs' with
    | nil => rfl
    | cons e cs'' =>
      rw [hasTriple_cons₃, if_neg]
      intro hP
      exact h hP.1

theorem hasTriple_cons_dot {cs : List Char} (h : leadDots cs ≤ 1) :
    hasTriple ('.' :: cs) = hasTriple cs := by
  cases cs with
  | nil => rfl
  | cons d cs' =>
    cases cs' with
    | nil => rfl
    | cons e cs'' =>
      rw [hasTriple_cons₃, if_neg]
      rintro ⟨-, hd, he⟩
      subst hd
      subst he
      rw [leadDots_cons_dot, leadDots_cons_dot] at h
      omega

/-! ### The replacement scanners leave no matches behind -/

theorem replaceEllipsis_of_hasDD_false {l : List Char} (h : hasDD l = false) :
    replaceEllipsis l = l := by
  induction l using replaceEllipsis.induct with
  | case1 => rfl
  | case2 c => rfl
  | case3 c d => rfl
  | case4 c d e cs hP ih =>
    exfalso
    rw [hasDD_cons_cons, if_pos ⟨hP.1, hP.2.1⟩] at h
    exact Bool.noConfusion h
  | case5 c d e cs hP ih =>
    rw [replaceEllipsis_cons₃, if_neg hP, ih (hasDD_tail h)]

theorem replaceDots_of_hasDD_false {l : List Char} (h : hasDD l = false) :
    replaceDots l = l := by
  induction l using replaceDots.induct with
  | case1 => rfl
  | case2 c => rfl
  | case3 c d cs hP ih =>
    exfalso
    rw [hasDD_cons_cons, if_pos hP] at h
    exact Bool.noConfusion h
  | case4 c d cs hP ih =>
    rw [replaceDots_cons_cons, if_neg hP, ih (hasDD_tail h)]

theorem replaceEllipsis_ne_nil {l : List Char} (h : l ≠ []) :
    replaceEllipsis l ≠ [] := by
  cases l with
  | nil => exact absurd rfl h
  | cons c cs =>
    cases cs with
    | nil => simp [replaceEllipsis]
    | cons d cs' =>
      cases cs' with
      | nil => simp [replaceEllipsis]
      | cons e cs'' =>
        rw [replaceEllipsis_cons₃]
        split <;> simp

theorem replaceDots_ne_nil {l : List Char} (h : l ≠ []) :
    replaceDots l ≠ [] := by
  cases l with
  | nil => exact absurd rfl h
  | cons c cs =>
    cases cs with
    | nil => simp [replaceDots]
    | cons d cs' =>
      rw [replaceDots_cons_cons]
      split <;> simp

/-- After the triple-period replacement, no three adjacent periods remain,
and the leading period run has not grown. -/
theorem replaceEllipsis_spec (l : List Char) :
    hasTriple (replaceEllipsis l) = false ∧
      leadDots (replaceEllipsis l) ≤ leadDots l := by
  induction l using replaceEllipsis.induct with
  | case1 => exact ⟨rfl, Nat.le_refl _⟩
  | case2 c => exact ⟨rfl, Nat.le_refl _⟩
  | case3 c d => exact ⟨rfl, Nat.le_refl _⟩
  | case4 c d e cs hP ih =>
    rw [replaceEllipsis_cons₃, if_pos hP]
    constructor
    · rw [hasTriple_cons_of_ne (by decide) _]
      exact ih.1
    · rw [leadDots_cons_of_ne (by decide)]
      exact Nat.zero_le _
  | case5 c d e cs hP ih =>
    rw [replaceEllipsis_cons₃, if_neg hP]
    by_cases hc : c = '.'
    · subst hc
      have hde : ¬(d = '.' ∧ e = '.') := fun hx => hP ⟨rfl, hx.1, hx.2⟩
      have hlead_t : leadDots (d :: e :: cs) ≤ 1 := by
        by_cases hd : d = '.'
        · subst hd
          have he : e ≠ '.' := fun hx => hde ⟨rfl, hx⟩
          rw [leadDots_cons_dot, leadDots_cons_of_ne he]
        · rw [leadDots_cons_of_ne hd]
          omega
      constructor
      · rw [hasTriple_cons_dot (le_trans ih.2 hlead_t)]
        exact ih.1
      · rw [leadDots_cons_dot, leadDots_cons_dot]
        exact Nat.succ_le_succ ih.2
    · constructor
      · rw [hasTriple_cons_of_ne hc]
        exact ih.1
      · rw [leadDots_cons_of_ne hc]
        exact Nat.zero_le _

/-- After the double-period replacement of a triple-free list, no two
adjacent periods remain; moreover the leading period run is at most one,
and zero if it was zero before. -/
theorem replaceDots_spec {l : List Char} (h : hasTriple l = false) :
    hasDD (replaceDots l) = false ∧ leadDots (replaceDots l) ≤ 1 ∧
      (leadDots l = 0 → leadDots (replaceDots l) = 0) := by
  induction l using replaceDots.induct with
  | case1 => exact ⟨rfl, Nat.zero_le _, fun _ => rfl⟩
  | case2 c =>
    refine ⟨rfl, ?_, fun hz => hz⟩
    show leadDots [c] ≤ 1
    by_cases hc : c = '.'
    · subst hc
      decide
    · rw [leadDots_cons_of_ne hc]
      omega
  | case3 c d cs hP ih =>
    obtain ⟨hc, hd⟩ := hP
    subst hc
    subst hd
    have hlz : leadDots cs = 0 := by
      cases cs with
      | nil => rfl
      | cons e cs' =>
        by_cases he : e = '.'
        · subst he
          rw [hasTriple_cons₃, if_pos ⟨rfl, rfl, rfl⟩] at h
          exact Bool.noConfusion h
        · exact leadDots_cons_of_ne he _
    have ih' := ih (hasTriple_tail (hasTriple_tail h))
    have hout0 : leadDots (replaceDots cs) = 0 := ih'.2.2 hlz
    rw [replaceDots_cons_cons, if_pos ⟨rfl, rfl⟩]
    refine ⟨?_, ?_, ?_⟩
    · rw [hasDD_cons_dot hout0]
      exact ih'.1
    · rw [leadDots_cons_dot, hout0]
    · intro hz
      exfalso
      rw [leadDots_cons_dot] at hz
      exact Nat.succ_ne_zero _ hz
  | case4 c d cs hP ih =>
    have ih' := ih (hasTriple_tail h)
    rw [replaceDots_cons_cons, if_neg hP]
    by_cases hc : c = '.'
    · subst hc
      have hd : d ≠ '.' := fun hx => hP ⟨rfl, hx⟩
      have hout0 : leadDots (replaceDots (d :: cs)) = 0 :=
        ih'.2.2 (leadDots_cons_of_ne hd _)
      refine ⟨?_, ?_, ?_⟩
      · rw [hasDD_cons_dot hout0]
        exact ih'.1
      · rw [leadDots_cons_dot, hout0]
      · intro hz
        exfalso
        rw [leadDots_cons_dot] at hz
        exact Nat.succ_ne_zero _ hz
    · refine ⟨?_, ?_, fun _ => leadDots_cons_of_ne hc _⟩
      · rw [hasDD_cons_of_ne hc]
        exact ih'.1
      · rw [leadDots_cons_of_ne hc]
        omega

/-! ### Non-whitespace ends survive stripping and replacement -/

theorem getLast?_cons_of_ne_nil (a : Char) {l : List Char} (h : l ≠ []) :
    (a :: l).getLast? = l.getLast? := by
  cases l with
  | nil => exact absurd rfl h
  | cons b l' => exact List.getLast?_cons_cons

theorem noWsLast_tail {a : Char} {l : List Char} (h : noWsLast (a :: l))
    (hne : l ≠ []) : noWsLast l := by
  intro x hx
  apply h
  rw [getLast?_cons_of_ne_nil a hne]
  exact hx

theorem head?_of_prefix {l₁ l₂ : List Char} (h : l₁ <+: l₂) (hne : l₁ ≠ []) :
    l₂.head? = l₁.head? := by
  obtain ⟨t, rfl⟩ := h
  cases l₁ with
  | nil => exact absurd rfl hne
  | cons a l => rfl

theorem pyStrip_noWsHead (l : List Char) : noWsHead (pyStrip l) := by
  intro c hc
  unfold pyStrip at hc
  by_cases hne : List.rdropWhile isPySpace (List.dropWhile isPySpace l) = []
  · rw [hne] at hc
    exact absurd hc (by simp)
  · have hpre := List.rdropWhile_prefix isPySpace (List.dropWhile isPySpace l)
    rw [← head?_of_prefix hpre hne] at hc
    have hm : List.dropWhile isPySpace l ≠ [] := by
      intro h0
      apply hne
      rw [h0, List.rdropWhile_nil]
    rw [List.head?_eq_head hm, Option.mem_some_iff] at hc
    subst hc
    exact List.head_dropWhile_not isPySpace l hm

theorem pyStrip_noWsLast (l : List Char) : noWsLast (pyStrip l) := by
  intro c hc
  unfold pyStrip at hc
  by_cases hne : List.rdropWhile isPySpace (List.dropWhile isPySpace l) = []
  · rw [hne] at hc
    exact absurd hc (by simp)
  · rw [List.getLast?_eq_getLast _ hne, Option.mem_some_iff] at hc
    subst hc
    have := List.rdropWhile_last_not isPySpace (List.dropWhile isPySpace l) hne
    simpa using this

theorem pyStrip_of_noWs {l : List Char} (h1 : noWsHead l) (h2 : noWsLast l) :
    pyStrip l = l := by
  unfold pyStrip
  have hd : List.dropWhile isPySpace l = l := by
    cases l with
    | nil => rfl
    | cons c cs =>
      rw [List.dropWhile_cons, if_neg]
      simp [h1 c rfl]
  rw [hd, List.rdropWhile_eq_self_iff.mpr]
  intro hl
  have := h2 (l.getLast hl) (by rw [List.getLast?_eq_getLast _ hl]; rfl)
  simp [this]

theorem noWsHead_replaceEllipsis {l : List Char} (h : noWsHead l) :
    noWsHead (replaceEllipsis l) := by
  cases l with
  | nil => exact h
  | cons c cs =>
    cases cs with
    | nil => exact h
    | cons d cs' =>
      cases cs' with
      | nil => exact h
      | cons e cs'' =>
        rw [replaceEllipsis_cons₃]
        by_cases hP : c = '.' ∧ d = '.' ∧ e = '.'
        · rw [if_pos hP]
          intro x hx
          rw [List.head?_cons, Option.mem_some_iff] at hx
          subst hx
          decide
        · rw [if_neg hP]
          intro x hx
          rw [List.head?_cons, Option.mem_some_iff] at hx
          subst hx
          exact h c rfl

theorem noWsHead_replaceDots {l : List Char} (h : noWsHead l) :
    noWsHead (replaceDots l) := by
  cases l with
  | nil => exact h
  | cons c cs =>
    cases cs with
    | nil => exact h
    | cons d cs' =>
      rw [replaceDots_cons_cons]
      by_cases hP : c = '.' ∧ d = '.'
      · rw [if_pos hP]
        intro x hx
        rw [List.head?_cons, Option.mem_some_iff] at hx
        subst hx
        decide
      · rw [if_neg hP]
        intro x hx
        rw [List.head?_cons, Option.mem_some_iff] at hx
        subst hx
        exact h c rfl

theorem noWsLast_replaceEllipsis {l : List Char} (h : noWsLast l) :
    noWsLast (replaceEllipsis l) := by
  induction l using replaceEllipsis.induct with
  | case1 => exact h
  | case2 c => exact h
  | case3 c d => exact h
  | case4 c d e cs hP ih =>
    rw [replaceEllipsis_cons₃, if_pos hP]
    intro x hx
    cases hrc : replaceEllipsis cs with
    | nil =>
      rw [hrc, List.getLast?_singleton, Option.mem_some_iff] at hx
      subst hx
      decide
    | cons y ys =>
      rw [hrc, List.getLast?_cons_cons, ← hrc] at hx
      have hcs_ne : cs ≠ [] := by
        intro hnil
        subst hnil
        exact List.noConfusion hrc
      have hlast_cs : noWsLast cs :=
        noWsLast_tail (noWsLast_tail (noWsLast_tail h (by simp)) (by simp)) hcs_ne
      exact ih hlast_cs x hx
  | case5 c d e cs hP ih =>
    rw [replaceEllipsis_cons₃, if_neg hP]
    intro x hx
    have ht_out : replaceEllipsis (d :: e :: cs) ≠ [] :=
      replaceEllipsis_ne_nil (by simp)
    rw [getLast?_cons_of_ne_nil c ht_out] at hx
    exact ih (noWsLast_tail h (by simp)) x hx

theorem noWsLast_replaceDots {l : List Char} (h : noWsLast l) :
    noWsLast (replaceDots l) := by
  induction l using replaceDots.induct with
  | case1 => exact h
  | case2 c => exact h
  | case3 c d cs hP ih =>
    rw [replaceDots_cons_cons, if_pos hP]
    intro x hx
    cases hrc : replaceDots cs with
    | nil =>
      rw [hrc, List.getLast?_singleton, Option.mem_some_iff] at hx
      subst hx
      decide
    | cons y ys =>
      rw [hrc, List.getLast?_cons_cons, ← hrc] at hx
      have hcs_ne : cs ≠ [] := by
        intro hnil
        subst hnil
        exact List.noConfusion hrc
      have hlast_cs : noWsLast cs :=
        noWsLast_tail (noWsLast_tail h (by simp)) hcs_ne
      exact ih hlast_cs x hx
  | case4 c d cs hP ih =>
    rw [replaceDots_cons_cons, if_neg hP]
    intro x hx
    have ht_out : replaceDots (d :: cs) ≠ [] := replaceDots_ne_nil (by simp)
    rw [getLast?_cons_of_ne_nil c ht_out] at hx
    exact ih (noWsLast_tail h (by simp)) x hx

end App

namespace App

/-! ## The claims -/

/-- C1. `create_srt` on the two-segment input
`[{start:0, end:2, text:"Hi"}, {start:2, end:3, text:"Bye"}]` produces
exactly the document
`"1\n00:00:00,000 --> 00:00:02,000\nHi\n\n2\n00:00:02,000 --> 00:00:03,000\nBye\n\n"`:
one four-line record per segment (index, time line, cleaned text, blank
separator), concatenated in input order. -/
theorem create_srt_two_segment_example :
    create_srt [⟨0, 2, "Hi"⟩, ⟨2, 3, "Bye"⟩] =
      "1\n00:00:00,000 --> 00:00:02,000\nHi\n\n2\n00:00:02,000 --> 00:00:03,000\nBye\n\n" := by
  with_unfolding_all decide

/-- C2, counterexample. The claim asserts `time_format` puts no upper bound
on the hours field and renders 360000 seconds (100 hours) as
`"100:00:00,000"`. In fact the code reads `td.seconds`, which Python's
`timedelta` has already reduced modulo one day, so 360000 seconds renders
as `"04:00:00,000"`. -/
theorem time_format_hundred_hours_wraps :
    time_format ((360000 : ℚ)) = "04:00:00,000" ∧
      time_format ((360000 : ℚ)) ≠ "100:00:00,000" := by
  with_unfolding_all decide

/-- C2, amended. `time_format` is periodic with period 86400 seconds (one
day) on whole-second inputs: the `timedelta` day part is silently dropped,
so the hours field always reads modulo 24 and never grows beyond two
digits. -/
theorem time_format_wraps_mod_day (n : ℕ) :
    time_format ((n + 86400 : ℕ) : ℚ) = time_format (n : ℚ) := by
  rw [time_format_natCast, time_format_natCast, Nat.add_mod_right]

/-- C3. The clean-up strips, then folds `"..."` to `"…"`, then folds the
remaining `".."` to `"."`, in that order: on `"Hello...world.."` the triple
run becomes an ellipsis and the double run a single period. -/
theorem clean_text_ellipsis_example :
    clean_text "Hello...world.." = "Hello…world." := by
  with_unfolding_all decide

/-- C4. For every input segment, `normalize_segment` establishes the
invariant `start ≥ 0` and `end > start` — including when the original
start is negative and the original end is at or below the clamped
start. -/
theorem normalize_segment_invariant (seg : Segment) :
    0 ≤ (normalize_segment seg).start ∧
      (normalize_segment seg).start < (normalize_segment seg).«end» := by
  simp only [normalize_segment]
  split_ifs with h1 h2 h3 <;> constructor <;> linarith

/-- C5. On a segment already satisfying `start ≥ 0` and `end > start`,
`normalize_segment` is the identity. -/
theorem normalize_segment_id (seg : Segment) (h1 : 0 ≤ seg.start)
    (h2 : seg.start < seg.«end») : normalize_segment seg = seg := by
  simp only [normalize_segment]
  rw [if_neg (not_lt.mpr h1), if_neg (not_le.mpr h2)]

/-- Witness for C5 at the concrete valid segment `⟨0, 1, "a"⟩`. -/
theorem normalize_segment_id_witness :
    normalize_segment ⟨0, 1, "a"⟩ = ⟨0, 1, "a"⟩ :=
  normalize_segment_id ⟨0, 1, "a"⟩ (show (0 : ℚ) ≤ 0 by norm_num)
    (show (0 : ℚ) < 1 by norm_num)

/-- C6. On a segment with `end ≤ start`, `normalize_segment` sets the end
to exactly one second after the (clamp-corrected) start. -/
theorem normalize_segment_floor (seg : Segment) (h : seg.«end» ≤ seg.start) :
    (normalize_segment seg).«end» = (normalize_segment seg).start + 1 := by
  simp only [normalize_segment]
  split_ifs with h1 h2 <;> first | rfl | linarith

/-- Witness for C6 at the concrete segment `⟨-2, -5, ""⟩` (negative start
and end at or below the clamped start). -/
theorem normalize_segment_floor_witness :
    (normalize_segment ⟨-2, -5, ""⟩).«end» = (normalize_segment ⟨-2, -5, ""⟩).start + 1 :=
  normalize_segment_floor ⟨-2, -5, ""⟩ (show (-5 : ℚ) ≤ -2 by norm_num)

/-- C7. `time_format` zero-pads `HH:MM:SS,mmm` and truncates (does not
round) the sub-millisecond remainder: the three spec examples. -/
theorem time_format_examples :
    time_format 0 = "00:00:00,000" ∧
      time_format ((3661.25 : ℚ)) = "01:01:01,250" ∧
      time_format ((59.999 : ℚ)) = "00:00:59,999" := by
  with_unfolding_all decide

/-- C8. The empty segment sequence yields the empty document, without
error. -/
theorem create_srt_nil : create_srt [] = "" := rfl

/-- C9, counterexample. The claim says no failure mode originates inside
the formatter for any finite input. In fact `timedelta(seconds=86400000000000)`
(a finite float, 10^9 days) raises `OverflowError` inside `time_format`,
and `create_srt` on a segment carrying such a timing fails with it. -/
theorem formatter_overflow_failure :
    time_format_py ((86400000000000 : ℚ)) = none ∧
      create_srt_py [⟨0, 86400000000000, "Hi"⟩] = none := by
  with_unfolding_all decide

/-- C9, amended. `normalize_segment` and `clean_text` terminate and
succeed on every well-typed input. `time_format` and `create_srt`
terminate and succeed — returning exactly what the total models return —
provided every formatted time passes `timedelta`'s ±999999999-day range
check (for whole-second inputs, up to 86399999999999 s); beyond that range
`timedelta` raises `OverflowError` inside the formatter. -/
theorem formatter_total_amended :
    (∀ seg : Segment, ∃ out : Segment, normalize_segment seg = out) ∧
      (∀ s : String, ∃ out : String, clean_text s = out) ∧
      (∀ n : ℕ, n ≤ 86399999999999 →
        time_format_py (n : ℚ) = some (time_format (n : ℚ))) ∧
      (∀ segs : List Segment,
        (∀ seg ∈ segs, timedelta_ok seg.start ∧ timedelta_ok seg.«end») →
        create_srt_py segs = some (create_srt segs)) :=
  ⟨fun seg => ⟨normalize_segment seg, rfl⟩, fun s => ⟨clean_text s, rfl⟩,
    fun _ hn => time_format_py_eq_some (timedelta_ok_natCast hn),
    fun segs h => create_srt_py_aux_eq_some 1 segs h⟩

/-- Witness for C9 at concrete in-range inputs: 7200 whole seconds, and
the two-segment document of C1's input. -/
theorem formatter_total_amended_witness :
    time_format_py ((7200 : ℕ) : ℚ) = some (time_format ((7200 : ℕ) : ℚ)) ∧
      create_srt_py [⟨0, 2, "Hi"⟩, ⟨2, 3, "Bye"⟩]
        = some (create_srt [⟨0, 2, "Hi"⟩, ⟨2, 3, "Bye"⟩]) :=
  ⟨formatter_total_amended.2.2.1 7200 (by norm_num),
    formatter_total_amended.2.2.2 [⟨0, 2, "Hi"⟩, ⟨2, 3, "Bye"⟩] (by
      intro seg hseg
      cases hseg with
      | head =>
        exact ⟨⟨by with_unfolding_all decide, by with_unfolding_all decide⟩,
          ⟨by with_unfolding_all decide, by with_unfolding_all decide⟩⟩
      | tail _ h2 =>
        cases h2 with
        | head =>
          exact ⟨⟨by with_unfolding_all decide, by with_unfolding_all decide⟩,
            ⟨by with_unfolding_all decide, by with_unfolding_all decide⟩⟩
        | tail _ h3 => cases h3)⟩

end App

namespace App

/-- C10. `clean_text` is idempotent: its output has no leading or trailing
whitespace, no run of three periods and no run of two periods, so a second
application changes nothing. -/
theorem clean_text_idempotent (s : String) :
    clean_text (clean_text s) = clean_text s := by
  have hA := replaceEllipsis_spec (pyStrip s.data)
  have hB := replaceDots_spec hA.1
  have h1 : noWsHead (replaceDots (replaceEllipsis (pyStrip s.data))) :=
    noWsHead_replaceDots (noWsHead_replaceEllipsis (pyStrip_noWsHead s.data))
  have h2 : noWsLast (replaceDots (replaceEllipsis (pyStrip s.data))) :=
    noWsLast_replaceDots (noWsLast_replaceEllipsis (pyStrip_noWsLast s.data))
  show String.mk (replaceDots (replaceEllipsis (pyStrip
      (replaceDots (replaceEllipsis (pyStrip s.data)))))) = clean_text s
  rw [pyStrip_of_noWs h1 h2, replaceEllipsis_of_hasDD_false hB.1,
    replaceDots_of_hasDD_false hB.1]
  rfl

end App
